import Mathlib

/-!
Verification of the container-storage yard (`store.py`) and the expert
scheduling strategy (`expert.py`).

The Python classes are shallowly embedded: a `Store` is a record holding the
width, the cash, the list of columns (each column a list of containers, the
top of a column being the last element, matching Python `append`/`pop`), and
the identifier-indexed location dictionary (`_container_loc`), embedded as an
association list.  Each public method of `Store` and the `Strategy` methods
relevant to the claims are translated function by function from the source.
-/

/-- Half-open time interval, from `store.py` (`TimeRange`). -/
structure TimeRange where
  start : Nat
  «end» : Nat
deriving DecidableEq

/-- A container record, from `store.py` (`Container`).  `value = -1` is the
internal shadow marker used for non-primary footprint cells. -/
structure Container where
  identifier : Nat
  size : Nat
  value : Int
  arrival : TimeRange
  delivery : TimeRange
deriving DecidableEq

/-- `Container.expired` from `store.py`: true iff `time >= delivery.end`. -/
def Container.expired (c : Container) (t : Nat) : Bool :=
  decide (c.delivery.«end» ≤ t)

/-- `Container.deliverable` from `store.py`:
true iff `delivery.start <= time < delivery.end`. -/
def Container.deliverable (c : Container) (t : Nat) : Bool :=
  decide (c.delivery.start ≤ t ∧ t < c.delivery.«end»)

/-- The "simple" (shadow) container built by `Store.add` for footprint cells
beyond the primary one: `Container(c.identifier, 1, -1, c.arrival, c.delivery)`. -/
def dumbContainer (c : Container) : Container :=
  ⟨c.identifier, 1, -1, c.arrival, c.delivery⟩

/-- Lookup in the location dictionary (`dict.get` keyed by identifier). -/
def locGet (k : Nat) : List (Nat × Nat × Nat) → Option (Nat × Nat)
  | [] => none
  | (k', v) :: m => if k' = k then some v else locGet k m

/-- `dict.update({k: v})`: `locGet` afterwards returns `v` at key `k` and is
unchanged at other keys. -/
def locUpdate (k : Nat) (v : Nat × Nat) (m : List (Nat × Nat × Nat)) :
    List (Nat × Nat × Nat) :=
  (k, v) :: m.filter (fun kv => kv.1 ≠ k)

/-- `dict.pop(k)`: `locGet` afterwards returns `none` at key `k`. -/
def locPop (k : Nat) (m : List (Nat × Nat × Nat)) : List (Nat × Nat × Nat) :=
  m.filter (fun kv => kv.1 ≠ k)

/-- The yard state of `store.py` (`Store`): width, cash, the per-column
stacks (`_containers`, bottom at the head, top at the end of each list) and
the location dictionary (`_container_loc`). -/
structure Store where
  width : Nat
  cash : Int
  containers : List (List Container)
  containerLoc : List (Nat × Nat × Nat)
deriving DecidableEq

/-- `Store.__init__(width)`: empty columns, zero cash, empty dictionary. -/
def emptyStore (w : Nat) : Store :=
  ⟨w, 0, List.replicate w [], []⟩

/-- The column at position `p` (`self._containers[p]`). -/
def Store.colAt (s : Store) (p : Nat) : List Container :=
  s.containers.getD p []

/-- `Store.get_column_height`: `len(self._containers[p])`. -/
def Store.get_column_height (s : Store) (p : Nat) : Nat :=
  (s.colAt p).length

/-- The cell of column `q` at row `r` (bottom row is `0`). -/
def Store.entry (s : Store) (q r : Nat) : Option Container :=
  (s.colAt q)[r]?

/-- `Store.add_cash`: `self._cash += amount`. -/
def Store.add_cash (s : Store) (amount : Int) : Store :=
  { s with cash := s.cash + amount }

/-- `Store.location`: dictionary lookup with default `(-1, -1)`. -/
def Store.location (s : Store) (c : Container) : Int × Int :=
  match locGet c.identifier s.containerLoc with
  | some (r, q) => ((r : Int), (q : Int))
  | none => (-1, -1)

/-- `Store.can_add`: false if `p + c.size > width`, else true iff every
column in `[p+1, p+c.size)` has the same height as column `p`. -/
def Store.can_add (s : Store) (c : Container) (p : Nat) : Bool :=
  if s.width < p + c.size then false
  else
    let h := s.get_column_height p
    (List.range' (p + 1) (c.size - 1)).all fun i => s.get_column_height i == h

/-- Append container `x` on top of column `i` (`self._containers[i].append(x)`). -/
def appendAt (cols : List (List Container)) (i : Nat) (x : Container) :
    List (List Container) :=
  cols.set i (cols.getD i [] ++ [x])

/-- Pop the top of column `i` (`self._containers[i].pop()`). -/
def popAt (cols : List (List Container)) (i : Nat) : List (List Container) :=
  cols.set i (cols.getD i []).dropLast

/-- `Store.add`: when `can_add` holds, append the primary entry at column `p`,
record its location `(len-1, p)`, and append a shadow (`dumbContainer`) at
each column of `[p+1, p+c.size)`; otherwise do nothing. -/
def Store.add (s : Store) (c : Container) (p : Nat) : Store :=
  if s.can_add c p then
    let row := (s.colAt p).length
    let cols1 := appendAt s.containers p c
    let cols2 := (List.range' (p + 1) (c.size - 1)).foldl
      (fun cs i => appendAt cs i (dumbContainer c)) cols1
    { s with containers := cols2,
             containerLoc := locUpdate c.identifier (row, p) s.containerLoc }
  else s

/-- `Store.can_remove`: false if the identifier is not in the dictionary or
`c.value = -1`; else true iff `len(column i) - 1` equals the recorded row
(as integers, so an empty column fails) for every `i` in `[q, q + c.size)`.

The source tests `len(self._containers[i])-1 is not l[0]` — CPython object
identity, which coincides with integer equality exactly when the compared
value lies in the interpreter's small-integer cache `[-5, 256]`, i.e. for
rows up to 256.  This definition is the integer-equality reading, faithful
on that range (`remove`, `move` and the strategy are embedded on top of it);
`Store.can_remove_py` below embeds the identity test itself, and the two
disagree on topmost primaries at rows `≥ 257` — the claim C5 code bug. -/
def Store.can_remove (s : Store) (c : Container) : Bool :=
  match locGet c.identifier s.containerLoc with
  | none => false
  | some (r, q) =>
    if c.value = -1 then false
    else (List.range' q c.size).all fun i =>
      (s.get_column_height i : Int) - 1 == (r : Int)

/-- `Store.remove`: when `c.value > -1` and `can_remove` holds, pop the top of
every column in `[q, q + c.size)` (where `(r, q)` is the recorded location)
and drop the identifier from the dictionary; otherwise do nothing. -/
def Store.remove (s : Store) (c : Container) : Store :=
  if (-1 : Int) < c.value then
    if s.can_remove c then
      match locGet c.identifier s.containerLoc with
      | some (_, q) =>
        { s with
          containers := (List.range' q c.size).foldl (fun cs i => popAt cs i) s.containers,
          containerLoc := locPop c.identifier s.containerLoc }
      | none => s
    else s
  else s

/-- `Store.move`: for an in-range position (`move` raises otherwise) and
`c.value != -1`, when both `can_remove c` and `can_add c p` hold in the
current state, perform `remove` followed by `add`; otherwise do nothing. -/
def Store.move (s : Store) (c : Container) (p : Nat) : Store :=
  if p < s.width then
    if c.value ≠ -1 then
      if s.can_remove c ∧ s.can_add c p then (s.remove c).add c p else s
    else s
  else s

/-- The left-walking loop of `Store.top_container`:
`while containers[p][-1].value == -1 and p >= 0: p -= 1`.
At `p = 0` with a shadow on top, Python decrements `p` to `-1`, re-evaluates
`containers[-1][-1].value` (negative indexing reads the last column), and the
`p >= 0` conjunct then exits the loop, returning the last column's top entry;
an empty column read is an `IndexError`, embedded as `none`. -/
def Store.topWalk (s : Store) : Nat → Option Container
  | 0 =>
    match (s.colAt 0).getLast? with
    | none => none
    | some e => if e.value = -1 then (s.colAt (s.width - 1)).getLast? else some e
  | q + 1 =>
    match (s.colAt (q + 1)).getLast? with
    | none => none
    | some e => if e.value = -1 then s.topWalk q else some e

/-- `Store.top_container`: `none` when the column is empty (or `p` is out of
range, where Python raises), otherwise the result of the leftward walk. -/
def Store.top_container (s : Store) (p : Nat) : Option Container :=
  if p < s.width then
    if (s.colAt p).length ≠ 0 then s.topWalk p else none
  else none

/-- Columns list has the declared width; true of every store built by the
Python constructor and preserved by every operation. -/
def WellSized (s : Store) : Prop :=
  s.containers.length = s.width

instance decWellSized (s : Store) : Decidable (WellSized s) := by
  unfold WellSized
  infer_instance

/-! ## The expert strategy (`expert.py`)

Only the `Strategy` methods the claims are about are embedded: `movable`,
`check`, `check_top`, `add_container`, `move_container`, `remove_container`
and `deliver_container`.  The embedded state keeps exactly the fields these
methods read or write: the store, the clock `_time`, the budget boundary
`_next_time`, and the action log written through `Logger`. -/

/-- One line of the action log (`Logger.add` / `remove` / `move` / `cash`). -/
inductive LogLine where
  | addL (t : Nat) (ident : Nat) (p : Nat)
  | removeL (t : Nat) (ident : Nat)
  | moveL (t : Nat) (ident : Nat) (p : Nat)
  | cashL (t : Nat) (amount : Int)
deriving DecidableEq

/-- The part of the `Strategy` state used by the embedded methods. -/
structure StrState where
  store : Store
  time : Nat
  next_time : Nat
  log : List LogLine
deriving DecidableEq

namespace Strategy

/-- The accumulator loop of `Strategy.movable`: the Python loop keeps a
`first` flag and the pair `(p, hmin)`, replacing it only on a strictly
smaller height; `acc = none` plays the role of `first = True`. -/
def movableAux (s : Store) (c : Container) (df : Nat) :
    List Nat → Option (Nat × Nat) → Option (Nat × Nat)
  | [], acc => acc
  | i :: rest, acc =>
    if s.can_add c i ∧ i + (c.size - 1) < df then
      match acc with
      | none => movableAux s c df rest (some (i, s.get_column_height i))
      | some (p, hmin) =>
        if s.get_column_height i < hmin then
          movableAux s c df rest (some (i, s.get_column_height i))
        else movableAux s c df rest (some (p, hmin))
    else movableAux s c df rest acc

/-- `Strategy.movable`: scan `i` over `range(df-1, d0-1, -1)` (the positions
`[d0, df)` from the highest index down), keeping the first strictly smallest
column height among positions where `can_add` holds and the footprint stays
inside the range. -/
def movable (s : Store) (c : Container) (d0 df : Nat) : Option Nat :=
  (movableAux s c df ((List.range' d0 (df - d0)).reverse) none).map (·.1)

/-- `Strategy.remove_container`: guarded by the time budget and
`can_remove`; removes the container, logs `REMOVE` then `CASH`, and consumes
one tick. -/
def remove_container (st : StrState) (c : Container) : StrState :=
  if st.time < st.next_time ∧ st.store.can_remove c then
    { st with store := st.store.remove c,
              log := st.log ++ [.removeL st.time c.identifier,
                                .cashL st.time (st.store.remove c).cash],
              time := st.time + 1 }
  else st

/-- `Strategy.deliver_container`: guarded by the time budget, `can_remove`
and `deliverable`; credits `c.value` to cash, removes the container, logs
`REMOVE` then `CASH`, and consumes one tick. -/
def deliver_container (st : StrState) (c : Container) : StrState :=
  if st.time < st.next_time ∧ st.store.can_remove c ∧ c.deliverable st.time then
    let store' := (st.store.add_cash c.value).remove c
    { st with store := store',
              log := st.log ++ [.removeL st.time c.identifier,
                                .cashL st.time store'.cash],
              time := st.time + 1 }
  else st

/-- `Strategy.check`: within the time budget, an expired container is removed
(no payment) and a deliverable one is delivered, both returning `False`;
otherwise the container is left alone and `True` is returned. -/
def check (st : StrState) (c : Container) : StrState × Bool :=
  if st.time < st.next_time then
    if c.expired st.time then (remove_container st c, false)
    else if c.deliverable st.time then (deliver_container st c, false)
    else (st, true)
  else (st, true)

/-- `Strategy.check_top`: apply `check` to the top container of column `p`,
when `p` is given and the column has one. -/
def check_top (st : StrState) (p : Option Nat) : StrState :=
  match p with
  | none => st
  | some q =>
    match st.store.top_container q with
    | none => st
    | some c => (check st c).1

/-- `Strategy.add_container`: within the time budget, find a position with
`movable`; if one exists, first `check` the top of the destination column,
then call `Store.add`, write the `ADD` log line (unconditionally), and
consume one tick. -/
def add_container (st : StrState) (c : Container) (d0 df : Nat) : StrState :=
  if st.time < st.next_time then
    match movable st.store c d0 df with
    | none => st
    | some p =>
      let st1 := check_top st (some p)
      { st1 with store := st1.store.add c p,
                 log := st1.log ++ [.addL st1.time c.identifier p],
                 time := st1.time + 1 }
  else st

/-- `Strategy.move_container`: `check` the moving container; if it survives,
`check` the top of the destination, then (re-checking the budget and
`can_remove` only) call `Store.move`, write the `MOVE` log line
(unconditionally), and consume one tick. -/
def move_container (st : StrState) (c : Container) (p : Option Nat) : StrState :=
  let res := check st c
  if res.2 then
    let st2 := check_top res.1 p
    match p with
    | some q =>
      if st2.time < st2.next_time ∧ st2.store.can_remove c then
        { st2 with store := st2.store.move c q,
                   log := st2.log ++ [.moveL st2.time c.identifier q],
                   time := st2.time + 1 }
      else st2
    | none => st2
  else res.1

end Strategy

/-! ## Concrete states used by the counterexample and code-bug theorems -/

/-- A size-2 container (claim C1). -/
def cX1 : Container := ⟨0, 2, 5, ⟨0, 1⟩, ⟨0, 1⟩⟩

/-- A size-1 container (claim C1). -/
def cD1 : Container := ⟨1, 1, 5, ⟨0, 1⟩, ⟨0, 1⟩⟩

/-- Width-4 store with `cX1` on columns 1-2 and `cD1` on column 3 (claim C1). -/
def sC1 : Store := ((emptyStore 4).add cX1 1).add cD1 3

/-- A size-2 container (claim C2). -/
def cA2 : Container := ⟨0, 2, 5, ⟨0, 1⟩, ⟨0, 1⟩⟩

/-- A size-1 container (claim C2). -/
def cB2 : Container := ⟨1, 1, 7, ⟨0, 1⟩, ⟨0, 1⟩⟩

/-- Width-2 store: `cA2` on columns 0-1, then `cB2` stacked on column 0 only
(legal, since `can_add` of a size-1 container constrains no other column). -/
def sC2 : Store := ((emptyStore 2).add cA2 0).add cB2 0

/-- Claim C2 counterexample.  In `sC2` the topmost cell of column 1 is the
shadow of `cA2`, yet `top_container 1` walks left and returns `cB2`, whose
footprint is column 0 alone (size 1, primary at column 0) and hence does not
cover the topmost cell of column 1. -/
theorem c2_top_container_cex :
    sC2.top_container 1 = some cB2 ∧
    sC2.entry 1 0 = some (dumbContainer cA2) ∧
    sC2.get_column_height 1 = 1 ∧
    cB2.size = 1 ∧ sC2.location cB2 = (1, 0) ∧ cB2.identifier ≠ cA2.identifier := by
  decide

/-- Claim C1 (code bug).  In `sC1` both preconditions of `move cX1 2` hold in
the pre-state, yet the move removes `cX1` and the internal `add` then fails
its re-checked `can_add` (the removal changed the heights of columns 2 and 3),
so the container is silently lost: after `move`, `cX1` is absent. -/
theorem c1_move_drops_container :
    sC1.can_remove cX1 = true ∧ sC1.can_add cX1 2 = true ∧
    (sC1.move cX1 2).location cX1 = (-1, -1) ∧
    (sC1.move cX1 2).get_column_height 1 = 0 ∧
    (sC1.move cX1 2).get_column_height 2 = 0 := by
  decide

/-- A deliverable top container (claim C3). -/
def cX3 : Container := ⟨0, 1, 5, ⟨0, 1⟩, ⟨0, 10⟩⟩

/-- A container parked on column 1 (claim C3). -/
def cY3 : Container := ⟨1, 1, 5, ⟨0, 1⟩, ⟨100, 200⟩⟩

/-- The size-2 container the strategy tries to place (claim C3). -/
def cZ3 : Container := ⟨2, 2, 5, ⟨0, 2⟩, ⟨50, 60⟩⟩

/-- Strategy state for claim C3: width-2 store with `cX3` at column 0 and
`cY3` at column 1, clock 0, budget boundary 2, empty log. -/
def st3 : StrState := ⟨((emptyStore 2).add cX3 0).add cY3 1, 0, 2, []⟩

/-- Claim C3 (code bug).  `add_container` finds position 0 for `cZ3`
(columns 0 and 1 have equal height), the pre-add `check_top` delivers `cX3`
(changing the height of column 0 only), the inner `Store.add` is then a
silent no-op (flat base broken), yet the `ADD` log line is written anyway:
the log records an operation that did not succeed, and `cZ3` is absent. -/
theorem c3_phantom_add_log :
    (Strategy.add_container st3 cZ3 0 2).log =
      [.removeL 0 0, .cashL 0 5, .addL 1 2 0] ∧
    (Strategy.add_container st3 cZ3 0 2).store.location cZ3 = (-1, -1) ∧
    (Strategy.add_container st3 cZ3 0 2).store =
      (Strategy.check_top st3 (some 0)).store := by
  decide

/-- The container double-added in the C6 counterexample. -/
def cC6 : Container := ⟨0, 1, 5, ⟨0, 1⟩, ⟨0, 1⟩⟩

/-- Width-1 store after the operation sequence
`add cC6 0; add cC6 0; remove cC6` (claim C6). -/
def sC6 : Store := (((emptyStore 1).add cC6 0).add cC6 0).remove cC6

/-- Claim C6 counterexample.  The sequence `add cC6 0; add cC6 0; remove cC6`
of store operations leaves `cC6` present as a primary entry at row 0 of
column 0, while `location` returns the absent sentinel `(-1, -1)`: the
second `add` overwrote the dictionary entry and the `remove` deleted it. -/
theorem c6_location_cex :
    sC6.location cC6 = (-1, -1) ∧
    sC6.entry 0 0 = some cC6 ∧ cC6.value ≠ -1 := by
  decide

/-- A size-2 container, expired at time 5 (claim C7). -/
def cX7 : Container := ⟨0, 2, 9, ⟨0, 1⟩, ⟨1, 3⟩⟩

/-- A size-1 container stacked on `cX7`'s shadow column (claim C7). -/
def cY7 : Container := ⟨1, 1, 9, ⟨0, 1⟩, ⟨100, 200⟩⟩

/-- Width-2 store: `cX7` on columns 0-1, `cY7` on top of column 1 (claim C7). -/
def sC7 : Store := ((emptyStore 2).add cX7 0).add cY7 1

/-- Strategy state for claim C7: clock 5, budget boundary 10. -/
def st7 : StrState := ⟨sC7, 5, 10, []⟩

/-- Claim C7 counterexample.  `cX7` is the top entry of column 0 (that is,
`top_container 0` returns it), it is expired at time 5 and the budget allows
an action, yet `check` leaves the state completely unchanged, because
`can_remove cX7` is false (`cY7` sits on its shadow cell in column 1): the
expired unit is not removed. -/
theorem c7_disposal_cex :
    cX7.expired 5 = true ∧
    sC7.top_container 0 = some cX7 ∧
    st7.time < st7.next_time ∧
    Strategy.check st7 cX7 = (st7, false) ∧
    sC7.location cX7 = (0, 0) := by
  decide

/-- A deliverable container filling the single column (claim C8). -/
def cX8 : Container := ⟨0, 1, 5, ⟨0, 1⟩, ⟨0, 10⟩⟩

/-- The container placed after the disposal (claim C8). -/
def cY8 : Container := ⟨1, 1, 7, ⟨0, 2⟩, ⟨50, 60⟩⟩

/-- Strategy state for claim C8: width-1 store holding `cX8`, clock 0,
budget boundary 1. -/
def st8 : StrState := ⟨(emptyStore 1).add cX8 0, 0, 1, []⟩

/-- Claim C8 (code bug).  `add_container` checks the budget only on entry:
the pre-add disposal of `cX8` consumes the last tick, so the clock reaches
`next_time = 1`, and the subsequent `Store.add` still mutates the store
(`cY8` becomes present) although the budget is exhausted; the `ADD` line is
stamped at time `1 = next_time`. -/
theorem c8_budget_violation :
    (Strategy.check_top st8 (some 0)).time = st8.next_time ∧
    (Strategy.check_top st8 (some 0)).store.location cY8 = (-1, -1) ∧
    (Strategy.add_container st8 cY8 0 1).store.location cY8 = (0, 0) ∧
    (Strategy.add_container st8 cY8 0 1).log =
      [.removeL 0 0, .cashL 0 5, .addL 1 1 0] := by
  decide

/-- A size-1 container for the C9 counterexample. -/
def cC9 : Container := ⟨0, 1, 0, ⟨0, 1⟩, ⟨0, 1⟩⟩

/-- Claim C9 counterexample.  On an empty width-2 store both columns 0 and 1
admit `cC9` with equal (zero) height; `movable` scans from the highest index
down and keeps the first minimum, so it returns column 1, not the lowest
admitting index 0. -/
theorem c9_movable_cex :
    Strategy.movable (emptyStore 2) cC9 0 2 = some 1 ∧
    (emptyStore 2).can_add cC9 0 = true ∧
    0 + (cC9.size - 1) < 2 ∧
    (emptyStore 2).get_column_height 0 = (emptyStore 2).get_column_height 1 := by
  decide

/-- Claim C10.  `add_cash` adds the amount with no sign check: the new cash
is always the old cash plus `a`, and a negative `a` strictly decreases it. -/
theorem c10_add_cash :
    ∀ (s : Store) (a : Int),
      (s.add_cash a).cash = s.cash + a ∧ (a < 0 → (s.add_cash a).cash < s.cash) := by
  intro s a
  refine ⟨rfl, ?_⟩
  intro h
  simp only [Store.add_cash]
  omega

/-- Witness for C10 at a concrete negative amount. -/
theorem c10_add_cash_witness :
    ((emptyStore 1).add_cash (-3)).cash = (emptyStore 1).cash + (-3) ∧
    ((-3 : Int) < 0 ∧ ((emptyStore 1).add_cash (-3)).cash < (emptyStore 1).cash) :=
  ⟨(c10_add_cash (emptyStore 1) (-3)).1,
   by decide, (c10_add_cash (emptyStore 1) (-3)).2 (by decide)⟩

/-! ## Basic lemmas about columns -/

theorem appendAt_length (cols : List (List Container)) (i : Nat) (x : Container) :
    (appendAt cols i x).length = cols.length :=
  List.length_set cols i _

theorem popAt_length (cols : List (List Container)) (i : Nat) :
    (popAt cols i).length = cols.length :=
  List.length_set cols i _

theorem getD_oob (cols : List (List Container)) (q : Nat) (h : cols.length ≤ q) :
    cols.getD q [] = [] := by
  rw [List.getD_eq_getElem?_getD, List.getElem?_eq_none h]
  rfl

theorem getD_set_self (cols : List (List Container)) (i : Nat) (l : List Container)
    (h : i < cols.length) : (cols.set i l).getD i [] = l := by
  rw [List.getD_eq_getElem?_getD, List.getElem?_set_self h]
  rfl

theorem getD_set_ne (cols : List (List Container)) (i j : Nat) (l : List Container)
    (h : i ≠ j) : (cols.set i l).getD j [] = cols.getD j [] := by
  rw [List.getD_eq_getElem?_getD, List.getElem?_set_ne h, ← List.getD_eq_getElem?_getD]

theorem appendAt_getD_self (cols : List (List Container)) (i : Nat) (x : Container)
    (h : i < cols.length) : (appendAt cols i x).getD i [] = cols.getD i [] ++ [x] :=
  getD_set_self cols i _ h

theorem appendAt_getD_ne (cols : List (List Container)) (i j : Nat) (x : Container)
    (h : i ≠ j) : (appendAt cols i x).getD j [] = cols.getD j [] :=
  getD_set_ne cols i j _ h

theorem popAt_getD_self (cols : List (List Container)) (i : Nat)
    (h : i < cols.length) : (popAt cols i).getD i [] = (cols.getD i []).dropLast :=
  getD_set_self cols i _ h

theorem popAt_getD_ne (cols : List (List Container)) (i j : Nat)
    (h : i ≠ j) : (popAt cols i).getD j [] = cols.getD j [] :=
  getD_set_ne cols i j _ h

theorem foldl_appendAt_length (x : Container) (L : List Nat) :
    ∀ cols : List (List Container),
      (L.foldl (fun cs i => appendAt cs i x) cols).length = cols.length := by
  induction L with
  | nil => intro cols; rfl
  | cons a L ih =>
    intro cols
    rw [List.foldl_cons, ih, appendAt_length]

theorem foldl_popAt_length (L : List Nat) :
    ∀ cols : List (List Container),
      (L.foldl (fun cs i => popAt cs i) cols).length = cols.length := by
  induction L with
  | nil => intro cols; rfl
  | cons a L ih =>
    intro cols
    rw [List.foldl_cons, ih, popAt_length]

theorem foldl_appendAt_getD (x : Container) :
    ∀ (k a : Nat) (cols : List (List Container)) (q : Nat),
      ((List.range' a k).foldl (fun cs i => appendAt cs i x) cols).getD q [] =
        if a ≤ q ∧ q < a + k ∧ q < cols.length then cols.getD q [] ++ [x]
        else cols.getD q [] := by
  intro k
  induction k with
  | zero =>
    intro a cols q
    rw [if_neg (by omega)]
    rfl
  | succ k ih =>
    intro a cols q
    rw [List.range'_succ a k 1, List.foldl_cons, ih, appendAt_length]
    by_cases hq : q = a
    · subst hq
      by_cases hlen : q < cols.length
      · rw [if_neg (by omega), if_pos ⟨Nat.le_refl q, by omega, hlen⟩]
        exact appendAt_getD_self cols q x hlen
      · rw [if_neg (by omega), if_neg (by omega)]
        rw [getD_oob (appendAt cols q x) q (by rw [appendAt_length]; omega),
          getD_oob cols q (by omega)]
    · have hne : (appendAt cols a x).getD q [] = cols.getD q [] :=
        appendAt_getD_ne cols a q x (Ne.symm hq)
      rw [hne]
      by_cases hcond : a ≤ q ∧ q < a + (k + 1) ∧ q < cols.length
      · rw [if_pos (by omega), if_pos hcond]
      · rw [if_neg (by omega), if_neg hcond]

theorem foldl_popAt_getD :
    ∀ (k a : Nat) (cols : List (List Container)) (q : Nat),
      ((List.range' a k).foldl (fun cs i => popAt cs i) cols).getD q [] =
        if a ≤ q ∧ q < a + k ∧ q < cols.length then (cols.getD q []).dropLast
        else cols.getD q [] := by
  intro k
  induction k with
  | zero =>
    intro a cols q
    rw [if_neg (by omega)]
    rfl
  | succ k ih =>
    intro a cols q
    rw [List.range'_succ a k 1, List.foldl_cons, ih, popAt_length]
    by_cases hq : q = a
    · subst hq
      by_cases hlen : q < cols.length
      · rw [if_neg (by omega), if_pos ⟨Nat.le_refl q, by omega, hlen⟩]
        exact popAt_getD_self cols q hlen
      · rw [if_neg (by omega), if_neg (by omega)]
        rw [getD_oob (popAt cols q) q (by rw [popAt_length]; omega),
          getD_oob cols q (by omega)]
    · have hne : (popAt cols a).getD q [] = cols.getD q [] :=
        popAt_getD_ne cols a q (Ne.symm hq)
      rw [hne]
      by_cases hcond : a ≤ q ∧ q < a + (k + 1) ∧ q < cols.length
      · rw [if_pos (by omega), if_pos hcond]
      · rw [if_neg (by omega), if_neg hcond]

/-! ## Characterization of `can_add` and the behaviour of `add` -/

theorem can_add_iff (s : Store) (c : Container) (p : Nat) :
    s.can_add c p = true ↔
      p + c.size ≤ s.width ∧
      ∀ i, p ≤ i → i < p + c.size → s.get_column_height i = s.get_column_height p := by
  simp only [Store.can_add]
  split
  · rename_i h
    constructor
    · intro hf; cases hf
    · intro ⟨hle, _⟩; omega
  · rename_i h
    rw [List.all_eq_true]
    constructor
    · intro hall
      refine ⟨by omega, ?_⟩
      intro i hpi hilt
      rcases Nat.eq_or_lt_of_le hpi with rfl | hlt
      · rfl
      · have hmem : i ∈ List.range' (p + 1) (c.size - 1) := by
          rw [List.mem_range'_1]; omega
        simpa using hall i hmem
    · intro ⟨_, hall⟩ i hi
      rw [List.mem_range'_1] at hi
      simp only [beq_iff_eq]
      exact hall i (by omega) (by omega)

theorem add_of_can_add (s : Store) (c : Container) (p : Nat) (hW : WellSized s)
    (h1 : 1 ≤ c.size) (hca : s.can_add c p = true) :
    (s.add c p).width = s.width ∧ (s.add c p).cash = s.cash ∧
    (s.add c p).containerLoc =
      locUpdate c.identifier ((s.colAt p).length, p) s.containerLoc ∧
    (s.add c p).colAt p = s.colAt p ++ [c] ∧
    (∀ i, p < i → i < p + c.size → (s.add c p).colAt i = s.colAt i ++ [dumbContainer c]) ∧
    (∀ j, j < p ∨ p + c.size ≤ j → (s.add c p).colAt j = s.colAt j) ∧
    WellSized (s.add c p) := by
  have hbound : p + c.size ≤ s.width := ((can_add_iff s c p).1 hca).1
  have hlen : s.containers.length = s.width := hW
  rw [Store.add, if_pos hca]
  refine ⟨rfl, rfl, rfl, ?_, ?_, ?_, ?_⟩
  · show (List.foldl _ (appendAt s.containers p c) _).getD p [] = s.colAt p ++ [c]
    rw [foldl_appendAt_getD, if_neg (by omega)]
    exact appendAt_getD_self s.containers p c (by omega)
  · intro i hpi hilt
    show (List.foldl _ (appendAt s.containers p c) _).getD i [] = s.colAt i ++ [dumbContainer c]
    rw [foldl_appendAt_getD,
      if_pos ⟨by omega, by omega, by rw [appendAt_length]; omega⟩]
    rw [appendAt_getD_ne s.containers p i c (by omega)]
    rfl
  · intro j hj
    show (List.foldl _ (appendAt s.containers p c) _).getD j [] = s.colAt j
    rw [foldl_appendAt_getD, if_neg (by rw [appendAt_length]; omega)]
    rcases hj with hj | hj
    · exact appendAt_getD_ne s.containers p j c (by omega)
    · exact appendAt_getD_ne s.containers p j c (by omega)
  · show (List.foldl _ (appendAt s.containers p c) _).length = s.width
    rw [foldl_appendAt_length, appendAt_length, hlen]

theorem add_of_not_can_add (s : Store) (c : Container) (p : Nat)
    (h : s.can_add c p = false) : s.add c p = s := by
  simp [Store.add, h]

/-- Claim C4.  `can_add c p` holds iff the footprint fits (`p + size ≤ width`)
and all footprint columns have equal height; a successful `add` appends the
primary entry at column `p` and a shadow at each of `p+1 .. p+size-1`, after
which all footprint columns again have equal height; a failed `add` leaves
the store unchanged. -/
theorem c4_can_add_add_correct (s : Store) (c : Container) (p : Nat)
    (hW : WellSized s) (h1 : 1 ≤ c.size) (_h4 : c.size ≤ 4) :
    (s.can_add c p = true ↔
      p + c.size ≤ s.width ∧
      ∀ i, p ≤ i → i < p + c.size → s.get_column_height i = s.get_column_height p) ∧
    (s.can_add c p = true →
      (s.add c p).colAt p = s.colAt p ++ [c] ∧
      (∀ i, p < i → i < p + c.size →
        (s.add c p).colAt i = s.colAt i ++ [dumbContainer c]) ∧
      (∀ j, j < p ∨ p + c.size ≤ j → (s.add c p).colAt j = s.colAt j) ∧
      (∀ i, p ≤ i → i < p + c.size →
        (s.add c p).get_column_height i = s.get_column_height p + 1)) ∧
    (s.can_add c p = false → s.add c p = s) := by
  refine ⟨can_add_iff s c p, ?_, add_of_not_can_add s c p⟩
  intro hca
  obtain ⟨-, -, -, hprim, hsh, hoth, -⟩ := add_of_can_add s c p hW h1 hca
  refine ⟨hprim, hsh, hoth, ?_⟩
  intro i hpi hilt
  have hh := ((can_add_iff s c p).1 hca).2 i hpi hilt
  rcases Nat.eq_or_lt_of_le hpi with rfl | hlt
  · simp [Store.get_column_height, hprim]
  · simp [Store.get_column_height, hsh i hlt hilt]
    simpa [Store.get_column_height] using hh

/-- Witness for C4: a concrete store, container and position satisfying the
hypotheses, with the primary-append consequence evaluated. -/
theorem c4_witness :
    WellSized (emptyStore 3) ∧ 1 ≤ cX1.size ∧ cX1.size ≤ 4 ∧
    ((emptyStore 3).add cX1 0).colAt 0 = (emptyStore 3).colAt 0 ++ [cX1] :=
  ⟨by decide, by decide, by decide,
    ((c4_can_add_add_correct (emptyStore 3) cX1 0 (by decide) (by decide)
      (by decide)).2.1 (by decide)).1⟩

/-! ## Characterization of `Strategy.movable` -/

/-- Position `i` admits container `c` inside the range ending at `df`, in the
sense of the condition tested by `Strategy.movable`. -/
def admits (s : Store) (c : Container) (df i : Nat) : Prop :=
  s.can_add c i = true ∧ i + (c.size - 1) < df

instance decAdmits (s : Store) (c : Container) (df i : Nat) :
    Decidable (admits s c df i) := by
  unfold admits
  infer_instance

/-- Invariant carried by the accumulator of `movableAux`: positions below
`lo` are still unprocessed; the accumulator holds the height of its position,
an admitting position `≥ lo`, and is optimal (minimal height, first minimum
in the descending scan, hence largest index) among admitting positions
`≥ lo`; a `none` accumulator means no position `≥ lo` admits `c`. -/
def AccInv (s : Store) (c : Container) (df lo : Nat) (acc : Option (Nat × Nat)) : Prop :=
  (acc = none → ∀ i, lo ≤ i → ¬ admits s c df i) ∧
  (∀ p h, acc = some (p, h) →
    h = s.get_column_height p ∧ admits s c df p ∧ lo ≤ p ∧
    ∀ i, lo ≤ i → admits s c df i →
      h ≤ s.get_column_height i ∧ (s.get_column_height i = h → i ≤ p))

theorem movableAux_spec (s : Store) (c : Container) (df d0 : Nat) :
    ∀ (n : Nat) (acc : Option (Nat × Nat)),
      AccInv s c df (d0 + n) acc →
      AccInv s c df d0 (Strategy.movableAux s c df ((List.range' d0 n).reverse) acc) ∧
      (Strategy.movableAux s c df ((List.range' d0 n).reverse) acc = none ↔
        (acc = none ∧ ∀ i, d0 ≤ i → i < d0 + n → ¬ admits s c df i)) := by
  intro n
  induction n with
  | zero =>
    intro acc hacc
    constructor
    · simpa using hacc
    · simp only [List.range', List.reverse_nil, Strategy.movableAux]
      constructor
      · intro h
        exact ⟨h, by omega⟩
      · intro ⟨h, _⟩
        exact h
  | succ n ih =>
    intro acc hacc
    have hconcat : List.range' d0 (n + 1) = List.range' d0 n ++ [d0 + n] := by
      simpa using @List.range'_concat 1 d0 n
    rw [hconcat, List.reverse_append, List.reverse_singleton, List.singleton_append]
    by_cases hadm : admits s c df (d0 + n)
    · -- the head position admits `c`: the accumulator is updated
      cases acc with
      | none =>
        have hstep : Strategy.movableAux s c df ((d0 + n) :: (List.range' d0 n).reverse) none
            = Strategy.movableAux s c df ((List.range' d0 n).reverse)
                (some (d0 + n, s.get_column_height (d0 + n))) := by
          simp only [Strategy.movableAux]
          rw [if_pos (show s.can_add c (d0 + n) = true ∧ d0 + n + (c.size - 1) < df from hadm)]
        rw [hstep]
        have hnone := hacc.1 rfl
        have hinv : AccInv s c df (d0 + n) (some (d0 + n, s.get_column_height (d0 + n))) := by
          constructor
          · intro h; cases h
          · intro p h hph
            injection hph with hph
            injection hph with hp hh
            subst hp; subst hh
            refine ⟨rfl, hadm, Nat.le_refl _, ?_⟩
            intro i hi hiadm
            rcases Nat.eq_or_lt_of_le hi with rfl | hlt
            · exact ⟨Nat.le_refl _, fun _ => Nat.le_refl _⟩
            · exact absurd hiadm (hnone i hlt)
        obtain ⟨h1, h2⟩ := ih _ hinv
        refine ⟨h1, ?_⟩
        rw [h2]
        constructor
        · intro ⟨h, _⟩; cases h
        · intro ⟨_, hall⟩
          exact absurd hadm (hall (d0 + n) (by omega) (by omega))
      | some ph =>
        obtain ⟨p0, h0⟩ := ph
        obtain ⟨hh0, hadm0, hlo0, hopt0⟩ := hacc.2 p0 h0 rfl
        by_cases hlt : s.get_column_height (d0 + n) < h0
        · -- strictly smaller height: replace the accumulator
          have hstep : Strategy.movableAux s c df ((d0 + n) :: (List.range' d0 n).reverse)
              (some (p0, h0))
              = Strategy.movableAux s c df ((List.range' d0 n).reverse)
                  (some (d0 + n, s.get_column_height (d0 + n))) := by
            simp only [Strategy.movableAux]
            rw [if_pos (show s.can_add c (d0 + n) = true ∧ d0 + n + (c.size - 1) < df from hadm), if_pos hlt]
          rw [hstep]
          have hinv : AccInv s c df (d0 + n) (some (d0 + n, s.get_column_height (d0 + n))) := by
            constructor
            · intro h; cases h
            · intro p h hph
              injection hph with hph
              injection hph with hp hh
              subst hp; subst hh
              refine ⟨rfl, hadm, Nat.le_refl _, ?_⟩
              intro i hi hiadm
              rcases Nat.eq_or_lt_of_le hi with rfl | hlt'
              · exact ⟨Nat.le_refl _, fun _ => Nat.le_refl _⟩
              · have := hopt0 i (by omega) hiadm
                exact ⟨by omega, fun hEq => by omega⟩
          obtain ⟨h1, h2⟩ := ih _ hinv
          refine ⟨h1, ?_⟩
          rw [h2]
          constructor
          · intro ⟨h, _⟩; cases h
          · intro ⟨h, _⟩; cases h
        · -- keep the accumulator
          have hstep : Strategy.movableAux s c df ((d0 + n) :: (List.range' d0 n).reverse)
              (some (p0, h0))
              = Strategy.movableAux s c df ((List.range' d0 n).reverse) (some (p0, h0)) := by
            simp only [Strategy.movableAux]
            rw [if_pos (show s.can_add c (d0 + n) = true ∧ d0 + n + (c.size - 1) < df from hadm), if_neg hlt]
          rw [hstep]
          have hinv : AccInv s c df (d0 + n) (some (p0, h0)) := by
            constructor
            · intro h; cases h
            · intro p h hph
              injection hph with hph
              injection hph with hp hh
              subst hp; subst hh
              refine ⟨hh0, hadm0, by omega, ?_⟩
              intro i hi hiadm
              rcases Nat.eq_or_lt_of_le hi with rfl | hlt'
              · exact ⟨by omega, fun _ => by omega⟩
              · exact hopt0 i (by omega) hiadm
          obtain ⟨h1, h2⟩ := ih _ hinv
          refine ⟨h1, ?_⟩
          rw [h2]
          constructor
          · intro ⟨h, _⟩; cases h
          · intro ⟨h, _⟩; cases h
    · -- the head position does not admit `c`: accumulator unchanged
      have hstep : Strategy.movableAux s c df ((d0 + n) :: (List.range' d0 n).reverse) acc
          = Strategy.movableAux s c df ((List.range' d0 n).reverse) acc := by
        cases acc with
        | none =>
          simp only [Strategy.movableAux]
          rw [if_neg (show ¬(s.can_add c (d0 + n) = true ∧ d0 + n + (c.size - 1) < df) from hadm)]
        | some ph =>
          obtain ⟨p, hmin⟩ := ph
          simp only [Strategy.movableAux]
          rw [if_neg (show ¬(s.can_add c (d0 + n) = true ∧ d0 + n + (c.size - 1) < df) from hadm)]
      rw [hstep]
      have hinv : AccInv s c df (d0 + n) acc := by
        constructor
        · intro h i hi
          rcases Nat.eq_or_lt_of_le hi with rfl | hlt
          · exact hadm
          · exact hacc.1 h i hlt
        · intro p h hph
          obtain ⟨hh, hadmp, hlop, hopt⟩ := hacc.2 p h hph
          refine ⟨hh, hadmp, by omega, ?_⟩
          intro i hi hiadm
          rcases Nat.eq_or_lt_of_le hi with rfl | hlt
          · exact absurd hiadm hadm
          · exact hopt i (by omega) hiadm
      obtain ⟨h1, h2⟩ := ih _ hinv
      refine ⟨h1, ?_⟩
      rw [h2]
      constructor
      · intro ⟨ha, hall⟩
        refine ⟨ha, ?_⟩
        intro i hi hilt
        rcases Nat.lt_or_ge i (d0 + n) with hlt | hge
        · exact hall i hi hlt
        · have : i = d0 + n := by omega
          subst this
          exact hadm
      · intro ⟨ha, hall⟩
        exact ⟨ha, fun i hi hilt => hall i hi (by omega)⟩

/-- Claim C9 (amended).  `movable c d0 df` returns `none` iff no column in
`[d0, df)` admits `c` (under `can_add`, with the footprint inside the range);
otherwise it returns an admitting column of minimal current height, with ties
broken towards the highest column index (the scan runs from `df-1` down to
`d0` and replaces the minimum only on a strict decrease). -/
theorem c9_movable_amended (s : Store) (c : Container) (d0 df : Nat)
    (h1 : 1 ≤ c.size) :
    (Strategy.movable s c d0 df = none ↔
      ∀ i, d0 ≤ i → i < df → ¬(s.can_add c i = true ∧ i + c.size ≤ df)) ∧
    (∀ p, Strategy.movable s c d0 df = some p →
      d0 ≤ p ∧ p < df ∧ s.can_add c p = true ∧ p + c.size ≤ df ∧
      ∀ i, d0 ≤ i → s.can_add c i = true → i + c.size ≤ df →
        s.get_column_height p ≤ s.get_column_height i ∧
        (s.get_column_height i = s.get_column_height p → i ≤ p)) := by
  have hemp : AccInv s c df (d0 + (df - d0)) none := by
    constructor
    · intro _ i hi hadm
      have := hadm.2
      omega
    · intro p h hph
      cases hph
  obtain ⟨hinv, hnone⟩ := movableAux_spec s c df d0 (df - d0) none hemp
  constructor
  · rw [Strategy.movable, Option.map_eq_none', hnone]
    constructor
    · intro ⟨_, hall⟩ i hd0 hdf ⟨hca, hsz⟩
      exact hall i hd0 (by omega) ⟨hca, by omega⟩
    · intro hall
      refine ⟨rfl, ?_⟩
      intro i hd0 hlt ⟨hca, hsz⟩
      exact hall i hd0 (by omega) ⟨hca, by omega⟩
  · intro p hp
    rw [Strategy.movable, Option.map_eq_some'] at hp
    obtain ⟨⟨p', h⟩, haux, hfst⟩ := hp
    simp only at hfst
    subst hfst
    obtain ⟨hh, hadm, hlo, hopt⟩ := hinv.2 p' h haux
    refine ⟨hlo, by have := hadm.2; omega, hadm.1, by have := hadm.2; omega, ?_⟩
    intro i hd0 hca hsz
    have hi : admits s c df i := ⟨hca, by omega⟩
    obtain ⟨hle, htie⟩ := hopt i hd0 hi
    subst hh
    exact ⟨hle, htie⟩

/-- Witness for C9 (amended) at the concrete instance of the counterexample
state: column 1 is returned and indeed admits `cC9` within `[0, 2)`. -/
theorem c9_movable_witness :
    1 ≤ cC9.size ∧
    (0 ≤ 1 ∧ 1 < 2 ∧ (emptyStore 2).can_add cC9 1 = true ∧ 1 + cC9.size ≤ 2) := by
  refine ⟨by decide, ?_⟩
  have h := (c9_movable_amended (emptyStore 2) cC9 0 2 (by decide)).2 1 (by decide)
  exact ⟨h.1, h.2.1, h.2.2.1, h.2.2.2.1⟩

/-! ## Lemmas on `remove`, cash and the location dictionary -/

theorem locGet_locPop_self (k : Nat) (m : List (Nat × Nat × Nat)) :
    locGet k (locPop k m) = none := by
  induction m with
  | nil => rfl
  | cons kv m ih =>
    obtain ⟨k', v⟩ := kv
    by_cases h : k' = k
    · subst h
      simpa [locPop, locGet] using ih
    · simpa [locPop, locGet, h] using ih

theorem locPop_cons_self (k : Nat) (v : Nat × Nat) (m : List (Nat × Nat × Nat)) :
    locPop k ((k, v) :: m) = locPop k m := by
  simp [locPop]

theorem locPop_cons_ne (k k'' : Nat) (v : Nat × Nat) (m : List (Nat × Nat × Nat))
    (h : k'' ≠ k) : locPop k ((k'', v) :: m) = (k'', v) :: locPop k m := by
  simp [locPop, h]

theorem locGet_locPop_ne (k k' : Nat) (m : List (Nat × Nat × Nat)) (h : k ≠ k') :
    locGet k' (locPop k m) = locGet k' m := by
  induction m with
  | nil => rfl
  | cons kv m ih =>
    obtain ⟨k'', v⟩ := kv
    by_cases h2 : k'' = k
    · subst h2
      rw [locPop_cons_self, ih]
      simp only [locGet]
      rw [if_neg h]
    · rw [locPop_cons_ne k k'' v m h2]
      simp only [locGet]
      by_cases h3 : k'' = k'
      · rw [if_pos h3, if_pos h3]
      · rw [if_neg h3, if_neg h3, ih]

theorem locGet_locUpdate_self (k : Nat) (v : Nat × Nat) (m : List (Nat × Nat × Nat)) :
    locGet k (locUpdate k v m) = some v := by
  simp [locUpdate, locGet]

theorem locGet_locUpdate_ne (k k' : Nat) (v : Nat × Nat) (m : List (Nat × Nat × Nat))
    (h : k ≠ k') : locGet k' (locUpdate k v m) = locGet k' m := by
  simp only [locUpdate, locGet]
  rw [if_neg h]
  exact locGet_locPop_ne k k' m h

theorem Store.remove_cash (s : Store) (c : Container) : (s.remove c).cash = s.cash := by
  rw [Store.remove]
  split
  · split
    · split
      · rfl
      · rfl
    · rfl
  · rfl

theorem Store.remove_width (s : Store) (c : Container) : (s.remove c).width = s.width := by
  rw [Store.remove]
  split
  · split
    · split
      · rfl
      · rfl
    · rfl
  · rfl

theorem can_remove_some_loc (s : Store) (c : Container)
    (h : s.can_remove c = true) :
    ∃ r q, locGet c.identifier s.containerLoc = some (r, q) := by
  rw [Store.can_remove] at h
  rcases hg : locGet c.identifier s.containerLoc with - | ⟨r, q⟩
  · rw [hg] at h
    cases h
  · exact ⟨r, q, rfl⟩

theorem remove_containerLoc_of_can_remove (s : Store) (c : Container)
    (hv : (-1 : Int) < c.value) (h : s.can_remove c = true) :
    (s.remove c).containerLoc = locPop c.identifier s.containerLoc := by
  obtain ⟨r, q, hg⟩ := can_remove_some_loc s c h
  rw [Store.remove, if_pos hv, if_pos h, hg]

theorem remove_location_of_can_remove (s : Store) (c : Container)
    (hv : (-1 : Int) < c.value) (h : s.can_remove c = true) :
    (s.remove c).location c = (-1, -1) := by
  rw [Store.location, remove_containerLoc_of_can_remove s c hv h, locGet_locPop_self]

theorem can_remove_add_cash (s : Store) (a : Int) (c : Container) :
    (s.add_cash a).can_remove c = s.can_remove c := rfl

/-! ## The disposal rule of the expert strategy (`Strategy.check`) -/

theorem remove_container_cash (st : StrState) (c : Container) :
    (Strategy.remove_container st c).store.cash = st.store.cash := by
  rw [Strategy.remove_container]
  split
  · exact Store.remove_cash st.store c
  · rfl

theorem deliver_container_cash (st : StrState) (c : Container) (h : 0 ≤ c.value) :
    st.store.cash ≤ (Strategy.deliver_container st c).store.cash := by
  rw [Strategy.deliver_container]
  split
  · show st.store.cash ≤ ((st.store.add_cash c.value).remove c).cash
    rw [Store.remove_cash]
    show st.store.cash ≤ st.store.cash + c.value
    omega
  · exact le_refl st.store.cash

/-- Claim C7 (amended).  Within the time budget, an expired top unit is
removed with cash unchanged and a deliverable one is removed with cash
increased by exactly its value — in both cases provided it is removable
(topmost over its whole footprint), which the original claim omitted;
otherwise, or out of budget, the unit is left in place, and for units of
non-negative value the cash never decreases across a `check`. -/
theorem c7_disposal_amended (st : StrState) (c : Container) :
    (0 ≤ c.value → st.time < st.next_time → c.expired st.time = true →
      st.store.can_remove c = true →
      (Strategy.check st c).2 = false ∧
      (Strategy.check st c).1.store = st.store.remove c ∧
      (Strategy.check st c).1.store.cash = st.store.cash ∧
      (Strategy.check st c).1.store.location c = (-1, -1) ∧
      (Strategy.check st c).1.time = st.time + 1) ∧
    (0 ≤ c.value → st.time < st.next_time → c.expired st.time = false →
      c.deliverable st.time = true → st.store.can_remove c = true →
      (Strategy.check st c).2 = false ∧
      (Strategy.check st c).1.store = (st.store.add_cash c.value).remove c ∧
      (Strategy.check st c).1.store.cash = st.store.cash + c.value ∧
      (Strategy.check st c).1.store.location c = (-1, -1) ∧
      (Strategy.check st c).1.time = st.time + 1) ∧
    (st.time < st.next_time → st.store.can_remove c = false →
      (Strategy.check st c).1 = st) ∧
    (¬(st.time < st.next_time) → Strategy.check st c = (st, true)) ∧
    (st.time < st.next_time → c.expired st.time = false →
      c.deliverable st.time = false → Strategy.check st c = (st, true)) ∧
    (0 ≤ c.value → st.store.cash ≤ (Strategy.check st c).1.store.cash) := by
  refine ⟨?_, ?_, ?_, ?_, ?_, ?_⟩
  · intro hv htime hexp hcr
    have hck : Strategy.check st c = (Strategy.remove_container st c, false) := by
      rw [Strategy.check, if_pos htime, if_pos hexp]
    have hrc : Strategy.remove_container st c =
        { st with store := st.store.remove c,
                  log := st.log ++ [.removeL st.time c.identifier,
                                    .cashL st.time (st.store.remove c).cash],
                  time := st.time + 1 } := by
      rw [Strategy.remove_container, if_pos ⟨htime, hcr⟩]
    rw [hck, hrc]
    refine ⟨rfl, rfl, Store.remove_cash st.store c, ?_, rfl⟩
    exact remove_location_of_can_remove st.store c (by omega) hcr
  · intro hv htime hexp hdel hcr
    have hck : Strategy.check st c = (Strategy.deliver_container st c, false) := by
      rw [Strategy.check, if_pos htime, if_neg (by rw [hexp]; exact Bool.false_ne_true),
        if_pos hdel]
    have hdc : Strategy.deliver_container st c =
        { st with store := (st.store.add_cash c.value).remove c,
                  log := st.log ++ [.removeL st.time c.identifier,
                                    .cashL st.time ((st.store.add_cash c.value).remove c).cash],
                  time := st.time + 1 } := by
      rw [Strategy.deliver_container, if_pos ⟨htime, hcr, hdel⟩]
    rw [hck, hdc]
    refine ⟨rfl, rfl, ?_, ?_, rfl⟩
    · rw [Store.remove_cash]
      rfl
    · exact remove_location_of_can_remove (st.store.add_cash c.value) c (by omega)
        (by rw [can_remove_add_cash]; exact hcr)
  · intro htime hcr
    rw [Strategy.check, if_pos htime]
    by_cases hexp : c.expired st.time = true
    · rw [if_pos hexp]
      show Strategy.remove_container st c = st
      rw [Strategy.remove_container, if_neg]
      intro ⟨_, h⟩
      rw [hcr] at h
      cases h
    · rw [if_neg hexp]
      by_cases hdel : c.deliverable st.time = true
      · rw [if_pos hdel]
        show Strategy.deliver_container st c = st
        rw [Strategy.deliver_container, if_neg]
        intro ⟨_, h, _⟩
        rw [hcr] at h
        cases h
      · rw [if_neg hdel]
  · intro htime
    rw [Strategy.check, if_neg htime]
  · intro htime hexp hdel
    rw [Strategy.check, if_pos htime, if_neg (by rw [hexp]; exact Bool.false_ne_true),
      if_neg (by rw [hdel]; exact Bool.false_ne_true)]
  · intro hv
    rw [Strategy.check]
    by_cases htime : st.time < st.next_time
    · rw [if_pos htime]
      by_cases hexp : c.expired st.time = true
      · rw [if_pos hexp]
        show st.store.cash ≤ (Strategy.remove_container st c).store.cash
        rw [remove_container_cash]
      · rw [if_neg hexp]
        by_cases hdel : c.deliverable st.time = true
        · rw [if_pos hdel]
          exact deliver_container_cash st c hv
        · rw [if_neg hdel]
    · rw [if_neg htime]

/-- A removable container, expired at time 5 (witness for C7). -/
def cW7 : Container := ⟨7, 1, 4, ⟨0, 1⟩, ⟨1, 3⟩⟩

/-- Strategy state for the C7 witness: width-1 store holding `cW7`,
clock 5, budget boundary 10. -/
def stW7 : StrState := ⟨(emptyStore 1).add cW7 0, 5, 10, []⟩

/-- Witness for C7 (amended): a removable, expired container at the top of
the single column is indeed removed, with the returned flag `false`. -/
theorem c7_disposal_witness :
    (0 ≤ cW7.value ∧ stW7.time < stW7.next_time ∧ cW7.expired stW7.time = true ∧
      stW7.store.can_remove cW7 = true) ∧
    ((Strategy.check stW7 cW7).2 = false ∧
      (Strategy.check stW7 cW7).1.store.location cW7 = (-1, -1)) := by
  refine ⟨⟨by decide, by decide, by decide, by decide⟩, ?_⟩
  have h := (c7_disposal_amended stW7 cW7).1 (by decide) (by decide) (by decide) (by decide)
  exact ⟨h.1, h.2.2.2.1⟩

/-! ## The yard invariant and reachability -/

theorem concat_getElem? (l : List Container) (x : Container) (r : Nat) :
    (l ++ [x])[r]? = if r = l.length then some x else l[r]? := by
  rcases Nat.lt_trichotomy r l.length with h | h | h
  · rw [if_neg (by omega)]
    exact List.getElem?_append_left h
  · subst h
    rw [if_pos rfl]
    simp
  · rw [if_neg (by omega), List.getElem?_eq_none (by simp; omega),
      List.getElem?_eq_none (by omega)]

theorem entry_lt_length (s : Store) (q r : Nat) (d : Container)
    (h : s.entry q r = some d) : r < (s.colAt q).length := by
  rw [Store.entry] at h
  exact (List.getElem?_eq_some.mp h).1

/-- The effect of a successful `add` on individual cells: the footprint
columns gain one cell at the common pre-add height (the primary at `p`, a
shadow elsewhere); every other cell is unchanged. -/
theorem entry_add (s : Store) (c : Container) (p : Nat)
    (hlen : s.containers.length = s.width) (h1 : 1 ≤ c.size)
    (hca : s.can_add c p = true) (q r : Nat) :
    (s.add c p).entry q r =
      if p ≤ q ∧ q < p + c.size ∧ r = (s.colAt p).length then
        some (if q = p then c else dumbContainer c)
      else s.entry q r := by
  obtain ⟨-, -, -, hprim, hsh, hoth, -⟩ := add_of_can_add s c p hlen h1 hca
  have hhq := (can_add_iff s c p).1 hca
  by_cases hq : p ≤ q ∧ q < p + c.size
  · have hcol : (s.colAt q).length = (s.colAt p).length := hhq.2 q hq.1 hq.2
    by_cases hqp : q = p
    · subst hqp
      rw [Store.entry, hprim, concat_getElem?]
      by_cases hr : r = (s.colAt q).length
      · rw [if_pos hr, if_pos ⟨hq.1, hq.2, hr⟩, if_pos rfl]
      · rw [if_neg hr, if_neg (fun hcond => hr hcond.2.2)]
        rfl
    · have hlt : p < q := by omega
      rw [Store.entry, hsh q hlt hq.2, concat_getElem?]
      by_cases hr : r = (s.colAt q).length
      · rw [if_pos hr, if_pos ⟨hq.1, hq.2, by omega⟩, if_neg hqp]
      · rw [if_neg hr, if_neg (fun hcond => hr (by rw [hcol]; exact hcond.2.2))]
        rfl
  · rw [if_neg (fun hcond => hq ⟨hcond.1, hcond.2.1⟩), Store.entry, hoth q (by omega)]
    rfl

/-- Extraction of the height facts from a true `can_remove`. -/
theorem can_remove_heights (s : Store) (c : Container) (r0 q0 : Nat)
    (hg : locGet c.identifier s.containerLoc = some (r0, q0))
    (h : s.can_remove c = true) :
    c.value ≠ -1 ∧ ∀ i, q0 ≤ i → i < q0 + c.size → (s.colAt i).length = r0 + 1 := by
  simp only [Store.can_remove, hg] at h
  by_cases hv : c.value = -1
  · rw [if_pos hv] at h
    cases h
  · rw [if_neg hv, List.all_eq_true] at h
    refine ⟨hv, ?_⟩
    intro i h0 hi
    have := h i (by rw [List.mem_range'_1]; omega)
    rw [beq_iff_eq, Store.get_column_height] at this
    omega

/-- Construction of a true `can_remove` from the location and heights. -/
theorem can_remove_of_heights (s : Store) (c : Container) (r0 q0 : Nat)
    (hg : locGet c.identifier s.containerLoc = some (r0, q0))
    (hv : c.value ≠ -1)
    (hh : ∀ i, q0 ≤ i → i < q0 + c.size → (s.colAt i).length = r0 + 1) :
    s.can_remove c = true := by
  simp only [Store.can_remove, hg]
  rw [if_neg hv, List.all_eq_true]
  intro i hi
  rw [List.mem_range'_1] at hi
  rw [beq_iff_eq, Store.get_column_height, hh i (by omega) (by omega)]
  omega

/-- The effect of a successful `remove` on individual cells: the top cell
(row `r0`) of every footprint column disappears; everything else is
unchanged.  `hq0w` bounds the footprint inside the column list. -/
theorem entry_remove (s : Store) (c : Container) (r0 q0 : Nat)
    (hlen : s.containers.length = s.width)
    (hg : locGet c.identifier s.containerLoc = some (r0, q0))
    (hv : (-1 : Int) < c.value)
    (hcr : s.can_remove c = true)
    (hq0w : q0 + c.size ≤ s.width) (q r : Nat) :
    (s.remove c).entry q r =
      if q0 ≤ q ∧ q < q0 + c.size ∧ r = r0 then none else s.entry q r := by
  have hh := (can_remove_heights s c r0 q0 hg hcr).2
  have hcols : (s.remove c).containers =
      (List.range' q0 c.size).foldl (fun cs i => popAt cs i) s.containers := by
    rw [Store.remove, if_pos hv, if_pos hcr, hg]
  rw [Store.entry, Store.colAt, hcols, foldl_popAt_getD]
  by_cases hq : q0 ≤ q ∧ q < q0 + c.size
  · rw [if_pos ⟨hq.1, by omega, by omega⟩]
    have hql : (s.colAt q).length = r0 + 1 := hh q hq.1 hq.2
    show (s.colAt q).dropLast[r]? = _
    rw [List.getElem?_dropLast]
    by_cases hr : r = r0
    · rw [if_neg (by omega), if_pos ⟨hq.1, hq.2, hr⟩]
    · by_cases hrlt : r < (s.colAt q).length - 1
      · rw [if_pos hrlt, if_neg (fun hcond => hr hcond.2.2)]
        rfl
      · rw [if_neg hrlt, if_neg (fun hcond => hr hcond.2.2), Store.entry,
          List.getElem?_eq_none (by omega)]
  · rw [if_neg (by omega), if_neg (fun hcond => hq ⟨hcond.1, hcond.2.1⟩)]
    rfl

theorem remove_length (s : Store) (c : Container) :
    (s.remove c).containers.length = s.containers.length := by
  rw [Store.remove]
  split
  · split
    · split
      · exact foldl_popAt_length _ _
      · rfl
    · rfl
  · rfl

/-- Record-consistency of a container argument with the store: if its
identifier is recorded at `(r, q)`, the cell there is this very record. -/
def recordMatch (s : Store) (c : Container) : Bool :=
  match locGet c.identifier s.containerLoc with
  | none => true
  | some (r, q) => s.entry q r == some c

/-- The well-formedness invariant of a store: columns match the width; every
primary entry carries a non-negative value, a positive size, fits in the
width and has its shadows (`dumbContainer` copies) on the same row of the
following footprint columns; every shadow cell is such a copy of a primary
to its left whose footprint covers it; and the location dictionary holds
exactly the primary entries. -/
structure StoreInv (s : Store) : Prop where
  len_eq : s.containers.length = s.width
  primary_spec : ∀ q r c, s.entry q r = some c → c.value ≠ -1 →
    0 ≤ c.value ∧ 1 ≤ c.size ∧ q + c.size ≤ s.width ∧
    ∀ i, 0 < i → i < c.size → s.entry (q + i) r = some (dumbContainer c)
  shadow_owner : ∀ q r e, s.entry q r = some e → e.value = -1 →
    ∃ q0 c, q0 < q ∧ s.entry q0 r = some c ∧ c.value ≠ -1 ∧ q < q0 + c.size ∧
      e = dumbContainer c
  loc_sound : ∀ k r q, locGet k s.containerLoc = some (r, q) →
    ∃ c, s.entry q r = some c ∧ c.value ≠ -1 ∧ c.identifier = k
  loc_complete : ∀ q r c, s.entry q r = some c → c.value ≠ -1 →
    locGet c.identifier s.containerLoc = some (r, q)

/-- States reachable from an empty store by `add`, `remove` and `move`
operations, where `add` is applied only to well-formed containers
(`value ≥ 0`, `size ≥ 1`) with a fresh identifier, and `remove`/`move` only
to arguments consistent with the stored record (`recordMatch`). -/
inductive Reachable : Store → Prop where
  | empty : ∀ w : Nat, 0 < w → Reachable (emptyStore w)
  | addStep : ∀ (s : Store) (c : Container) (p : Nat), Reachable s →
      0 ≤ c.value → 1 ≤ c.size → locGet c.identifier s.containerLoc = none →
      Reachable (s.add c p)
  | removeStep : ∀ (s : Store) (c : Container), Reachable s →
      recordMatch s c = true → Reachable (s.remove c)
  | moveStep : ∀ (s : Store) (c : Container) (p : Nat), Reachable s →
      recordMatch s c = true → p < s.width → Reachable (s.move c p)

theorem inv_empty (w : Nat) : StoreInv (emptyStore w) := by
  have hcol : ∀ q, (emptyStore w).colAt q = [] := by
    intro q
    rw [Store.colAt, List.getD_eq_getElem?_getD]
    show ((List.replicate w ([] : List Container))[q]?).getD [] = []
    rcases Nat.lt_or_ge q w with h | h
    · rw [List.getElem?_replicate, if_pos h]
      rfl
    · rw [List.getElem?_eq_none (by simpa using h)]
      rfl
  have hent : ∀ q r, (emptyStore w).entry q r = none := by
    intro q r
    rw [Store.entry, hcol]
    rfl
  refine ⟨by simp [emptyStore], ?_, ?_, ?_, ?_⟩
  · intro q r c h
    rw [hent] at h
    cases h
  · intro q r e h
    rw [hent] at h
    cases h
  · intro k r q h
    cases h
  · intro q r c h
    rw [hent] at h
    cases h

theorem inv_add (s : Store) (c : Container) (p : Nat) (hinv : StoreInv s)
    (hv : 0 ≤ c.value) (h1 : 1 ≤ c.size)
    (hfresh : locGet c.identifier s.containerLoc = none) :
    StoreInv (s.add c p) := by
  by_cases hca : s.can_add c p = true
  case neg =>
    rw [add_of_not_can_add s c p (by revert hca; cases s.can_add c p <;> simp)]
    exact hinv
  case pos =>
  have hE := entry_add s c p hinv.len_eq h1 hca
  obtain ⟨hw, hcash, hloc, hprim, hsh, hoth, hws⟩ := add_of_can_add s c p hinv.len_eq h1 hca
  have hbound := ((can_add_iff s c p).1 hca).1
  have hhq := ((can_add_iff s c p).1 hca).2
  simp only [Store.get_column_height] at hhq
  have hpreserved : ∀ q r d, s.entry q r = some d → (s.add c p).entry q r = some d := by
    intro q r d hd
    rw [hE q r]
    by_cases hq : p ≤ q ∧ q < p + c.size
    · rw [if_neg]
      · exact hd
      · intro hcond
        obtain ⟨-, -, hr⟩ := hcond
        have hlt := entry_lt_length s q r d hd
        rw [hhq q hq.1 hq.2] at hlt
        omega
    · rw [if_neg (fun hcond => hq ⟨hcond.1, hcond.2.1⟩)]
      exact hd
  have hnewp : (s.add c p).entry p (s.colAt p).length = some c := by
    rw [hE, if_pos ⟨Nat.le_refl p, by omega, rfl⟩, if_pos rfl]
  have hnews : ∀ i, 0 < i → i < c.size →
      (s.add c p).entry (p + i) (s.colAt p).length = some (dumbContainer c) := by
    intro i hi1 hi2
    rw [hE, if_pos ⟨by omega, by omega, rfl⟩, if_neg (by omega)]
  have hinvE : ∀ q r d, (s.add c p).entry q r = some d →
      s.entry q r = some d ∨
      (p ≤ q ∧ q < p + c.size ∧ r = (s.colAt p).length ∧
        d = if q = p then c else dumbContainer c) := by
    intro q r d hd
    rw [hE q r] at hd
    by_cases hcond : p ≤ q ∧ q < p + c.size ∧ r = (s.colAt p).length
    · rw [if_pos hcond] at hd
      right
      injection hd with hd
      exact ⟨hcond.1, hcond.2.1, hcond.2.2, hd.symm⟩
    · rw [if_neg hcond] at hd
      left
      exact hd
  refine ⟨hws, ?_, ?_, ?_, ?_⟩
  · -- primary_spec
    intro q r d hd hdv
    rcases hinvE q r d hd with hold | ⟨hq1, hq2, hr, hdval⟩
    · obtain ⟨hv0, hs0, hb0, hshadow0⟩ := hinv.primary_spec q r d hold hdv
      refine ⟨hv0, hs0, by rw [hw]; exact hb0, ?_⟩
      intro i hi1 hi2
      exact hpreserved _ _ _ (hshadow0 i hi1 hi2)
    · by_cases hqp : q = p
      · subst hqp
        rw [if_pos rfl] at hdval
        subst hdval
        subst hr
        refine ⟨hv, h1, by rw [hw]; exact (by omega), ?_⟩
        intro i hi1 hi2
        exact hnews i hi1 hi2
      · rw [if_neg hqp] at hdval
        rw [hdval] at hdv
        exact absurd rfl hdv
  · -- shadow_owner
    intro q r e he hev
    rcases hinvE q r e he with hold | ⟨hq1, hq2, hr, heval⟩
    · obtain ⟨q0, c0, hq0, hc0, hc0v, hcov, hco⟩ := hinv.shadow_owner q r e hold hev
      exact ⟨q0, c0, hq0, hpreserved _ _ _ hc0, hc0v, hcov, hco⟩
    · by_cases hqp : q = p
      · subst hqp
        rw [if_pos rfl] at heval
        rw [heval] at hev
        omega
      · rw [if_neg hqp] at heval
        subst hr
        refine ⟨p, c, by omega, hnewp, by omega, by omega, heval⟩
  · -- loc_sound
    intro k r q hk
    rw [hloc] at hk
    by_cases hkc : c.identifier = k
    · subst hkc
      rw [locGet_locUpdate_self] at hk
      injection hk with hk
      injection hk with hk1 hk2
      subst hk1
      subst hk2
      exact ⟨c, hnewp, by omega, rfl⟩
    · rw [locGet_locUpdate_ne _ _ _ _ hkc] at hk
      obtain ⟨d, hd, hdv, hdk⟩ := hinv.loc_sound k r q hk
      exact ⟨d, hpreserved _ _ _ hd, hdv, hdk⟩
  · -- loc_complete
    intro q r d hd hdv
    rw [hloc]
    rcases hinvE q r d hd with hold | ⟨hq1, hq2, hr, hdval⟩
    · have hold_loc := hinv.loc_complete q r d hold hdv
      have hne : c.identifier ≠ d.identifier := by
        intro heq
        rw [← heq] at hold_loc
        rw [hfresh] at hold_loc
        cases hold_loc
      rw [locGet_locUpdate_ne _ _ _ _ hne]
      exact hold_loc
    · by_cases hqp : q = p
      · subst hqp
        rw [if_pos rfl] at hdval
        subst hdval
        subst hr
        rw [locGet_locUpdate_self]
      · rw [if_neg hqp] at hdval
        rw [hdval] at hdv
        exact absurd rfl hdv

theorem inv_remove (s : Store) (c : Container) (hinv : StoreInv s)
    (hrm : recordMatch s c = true) : StoreInv (s.remove c) := by
  by_cases hv : (-1 : Int) < c.value
  case neg =>
    rw [Store.remove, if_neg hv]
    exact hinv
  case pos =>
  by_cases hcr : s.can_remove c = true
  case neg =>
    rw [Store.remove, if_pos hv, if_neg hcr]
    exact hinv
  case pos =>
  obtain ⟨r0, q0, hg⟩ := can_remove_some_loc s c hcr
  have hcell : s.entry q0 r0 = some c := by
    simp only [recordMatch, hg] at hrm
    rwa [beq_iff_eq] at hrm
  obtain ⟨hcv, h1, hq0w, hshadows⟩ := hinv.primary_spec q0 r0 c hcell (by omega)
  have hE := entry_remove s c r0 q0 hinv.len_eq hg hv hcr hq0w
  have hlocpop : (s.remove c).containerLoc = locPop c.identifier s.containerLoc :=
    remove_containerLoc_of_can_remove s c hv hcr
  have hwidth : (s.remove c).width = s.width := Store.remove_width s c
  have hpopped : ∀ q, q0 ≤ q → q < q0 + c.size →
      s.entry q r0 = some (if q = q0 then c else dumbContainer c) := by
    intro q hq1 hq2
    by_cases hq : q = q0
    · subst hq
      rw [if_pos rfl]
      exact hcell
    · rw [if_neg hq]
      have := hshadows (q - q0) (by omega) (by omega)
      rwa [show q0 + (q - q0) = q by omega] at this
  have huniq : ∀ q r d, s.entry q r = some d → d.value ≠ -1 →
      d.identifier = c.identifier → q = q0 ∧ r = r0 ∧ d = c := by
    intro q r d hd hdv hdk
    have hloc := hinv.loc_complete q r d hd hdv
    rw [hdk, hg] at hloc
    injection hloc with hloc
    injection hloc with hr hq
    subst hr
    subst hq
    have : some d = some c := by rw [← hd, hcell]
    injection this with this
    exact ⟨rfl, rfl, this⟩
  have hpres : ∀ q r d, s.entry q r = some d →
      ¬(q0 ≤ q ∧ q < q0 + c.size ∧ r = r0) → (s.remove c).entry q r = some d := by
    intro q r d hd hn
    rw [hE, if_neg hn]
    exact hd
  have hinvE : ∀ q r d, (s.remove c).entry q r = some d →
      s.entry q r = some d ∧ ¬(q0 ≤ q ∧ q < q0 + c.size ∧ r = r0) := by
    intro q r d hd
    rw [hE] at hd
    by_cases hcond : q0 ≤ q ∧ q < q0 + c.size ∧ r = r0
    · rw [if_pos hcond] at hd
      cases hd
    · rw [if_neg hcond] at hd
      exact ⟨hd, hcond⟩
  have hsurv_ne : ∀ q r d, s.entry q r = some d → d.value ≠ -1 →
      ¬(q0 ≤ q ∧ q < q0 + c.size ∧ r = r0) → d.identifier ≠ c.identifier := by
    intro q r d hd hdv hn hdk
    obtain ⟨hq, hr, -⟩ := huniq q r d hd hdv hdk
    exact hn ⟨by omega, by omega, hr⟩
  refine ⟨?_, ?_, ?_, ?_, ?_⟩
  · show (s.remove c).containers.length = (s.remove c).width
    rw [remove_length, hwidth]
    exact hinv.len_eq
  · -- primary_spec
    intro q r d hd hdv
    obtain ⟨hold, hn⟩ := hinvE q r d hd
    obtain ⟨hv0, hs0, hb0, hshadow0⟩ := hinv.primary_spec q r d hold hdv
    refine ⟨hv0, hs0, by rw [hwidth]; exact hb0, ?_⟩
    intro i hi1 hi2
    refine hpres _ _ _ (hshadow0 i hi1 hi2) ?_
    intro ⟨hp1, hp2, hp3⟩
    have hcellqi := hpopped (q + i) hp1 hp2
    rw [← hp3] at hcellqi
    rw [hshadow0 i hi1 hi2] at hcellqi
    injection hcellqi with hcellqi
    by_cases hqi : q + i = q0
    · rw [if_pos hqi] at hcellqi
      have : (dumbContainer d).value = c.value := by rw [hcellqi]
      simp [dumbContainer] at this
      omega
    · rw [if_neg hqi] at hcellqi
      have hdk : d.identifier = c.identifier := by
        have : (dumbContainer d).identifier = (dumbContainer c).identifier := by
          rw [hcellqi]
        simpa [dumbContainer] using this
      exact hsurv_ne q r d hold hdv hn hdk
  · -- shadow_owner
    intro q r e he hev
    obtain ⟨hold, hn⟩ := hinvE q r e he
    obtain ⟨q1, c1, hlt, hc1, hc1v, hcov, heq⟩ := hinv.shadow_owner q r e hold hev
    refine ⟨q1, c1, hlt, hpres _ _ _ hc1 ?_, hc1v, hcov, heq⟩
    intro ⟨hp1, hp2, hp3⟩
    have hcellq1 := hpopped q1 hp1 hp2
    rw [← hp3] at hcellq1
    rw [hc1] at hcellq1
    injection hcellq1 with hcellq1
    by_cases hq1 : q1 = q0
    · -- the owner is the removed container itself, so (q, r) was popped too
      rw [if_pos hq1] at hcellq1
      subst hcellq1
      exact hn ⟨by omega, by omega, hp3⟩
    · rw [if_neg hq1] at hcellq1
      rw [hcellq1] at hc1v
      exact hc1v rfl
  · -- loc_sound
    intro k r q hk
    rw [hlocpop] at hk
    by_cases hkc : c.identifier = k
    · subst hkc
      rw [locGet_locPop_self] at hk
      cases hk
    · rw [locGet_locPop_ne _ _ _ hkc] at hk
      obtain ⟨d, hd, hdv, hdk⟩ := hinv.loc_sound k r q hk
      refine ⟨d, hpres _ _ _ hd ?_, hdv, hdk⟩
      intro ⟨hp1, hp2, hp3⟩
      have hcellq := hpopped q hp1 hp2
      rw [← hp3] at hcellq
      rw [hd] at hcellq
      injection hcellq with hcellq
      by_cases hq : q = q0
      · rw [if_pos hq] at hcellq
        subst hcellq
        exact hkc hdk
      · rw [if_neg hq] at hcellq
        rw [hcellq] at hdv
        exact hdv rfl
  · -- loc_complete
    intro q r d hd hdv
    obtain ⟨hold, hn⟩ := hinvE q r d hd
    have hloc := hinv.loc_complete q r d hold hdv
    rw [hlocpop]
    have hne : c.identifier ≠ d.identifier :=
      fun heq => hsurv_ne q r d hold hdv hn heq.symm
    rw [locGet_locPop_ne _ _ _ hne]
    exact hloc

theorem inv_move (s : Store) (c : Container) (p : Nat) (hinv : StoreInv s)
    (hrm : recordMatch s c = true) (hpw : p < s.width) : StoreInv (s.move c p) := by
  rw [Store.move, if_pos hpw]
  by_cases hval : c.value ≠ -1
  case neg =>
    rw [if_neg hval]
    exact hinv
  case pos =>
  rw [if_pos hval]
  by_cases hboth : s.can_remove c = true ∧ s.can_add c p = true
  case neg =>
    rw [if_neg hboth]
    exact hinv
  case pos =>
  rw [if_pos hboth]
  obtain ⟨r0, q0, hg⟩ := can_remove_some_loc s c hboth.1
  have hcell : s.entry q0 r0 = some c := by
    simp only [recordMatch, hg] at hrm
    rwa [beq_iff_eq] at hrm
  obtain ⟨hcv, h1, -, -⟩ := hinv.primary_spec q0 r0 c hcell (by omega)
  have hmid : StoreInv (s.remove c) := inv_remove s c hinv hrm
  have hfresh : locGet c.identifier (s.remove c).containerLoc = none := by
    rw [remove_containerLoc_of_can_remove s c (by omega) hboth.1, locGet_locPop_self]
  exact inv_add (s.remove c) c p hmid hcv h1 hfresh

/-- Every reachable store satisfies the yard invariant. -/
theorem reachable_inv : ∀ s, Reachable s → StoreInv s := by
  intro s h
  induction h with
  | empty w hw => exact inv_empty w
  | addStep s c p _ hv h1 hfresh ih => exact inv_add s c p ih hv h1 hfresh
  | removeStep s c _ hrm ih => exact inv_remove s c ih hrm
  | moveStep s c p _ hrm hpw ih => exact inv_move s c p ih hrm hpw

/-- Claim C6 (amended).  On every store reachable by operation sequences with
fresh-identifier adds and record-consistent removes/moves, `location c`
returns the sentinel `(-1, -1)` iff no primary entry carries `c`'s
identifier, and otherwise it returns the row and column of the primary entry
carrying that identifier. -/
theorem c6_location_amended (s : Store) (hre : Reachable s) (c : Container) :
    (s.location c = (-1, -1) ↔
      ∀ q r d, s.entry q r = some d → d.value ≠ -1 → d.identifier ≠ c.identifier) ∧
    (∀ r q : Nat, s.location c = ((r : Int), (q : Int)) →
      ∃ d, s.entry q r = some d ∧ d.value ≠ -1 ∧ d.identifier = c.identifier) := by
  have hinv := reachable_inv s hre
  constructor
  · constructor
    · intro hloc q r d hd hdv hdk
      have hcomp := hinv.loc_complete q r d hd hdv
      rw [hdk] at hcomp
      simp only [Store.location, hcomp] at hloc
      injection hloc with h1 h2
      omega
    · intro hall
      rcases hg : locGet c.identifier s.containerLoc with - | ⟨r, q⟩
      · simp only [Store.location, hg]
      · obtain ⟨d, hd, hdv, hdk⟩ := hinv.loc_sound c.identifier r q hg
        exact absurd hdk (hall q r d hd hdv)
  · intro r q hloc
    rcases hg : locGet c.identifier s.containerLoc with - | ⟨r', q'⟩
    · simp only [Store.location, hg] at hloc
      injection hloc with h1 h2
      omega
    · simp only [Store.location, hg] at hloc
      injection hloc with h1 h2
      have hr : r' = r := by exact_mod_cast h1
      have hq : q' = q := by exact_mod_cast h2
      subst hr
      subst hq
      exact hinv.loc_sound c.identifier r' q' hg

/-- A container and store for the C6 witness. -/
def cW6 : Container := ⟨2, 1, 3, ⟨0, 1⟩, ⟨0, 1⟩⟩

/-- Width-1 store holding `cW6` at column 0 (witness for C6). -/
def sW6 : Store := (emptyStore 1).add cW6 0

/-- Witness for C6 (amended) at a concrete reachable store: `location`
points at the primary entry. -/
theorem c6_location_witness :
    sW6.location cW6 = ((0 : Int), (0 : Int)) ∧
    ∃ d, sW6.entry 0 0 = some d ∧ d.value ≠ -1 ∧ d.identifier = cW6.identifier :=
  ⟨by decide,
   (c6_location_amended sW6
     (Reachable.addStep (emptyStore 1) cW6 0 (Reachable.empty 1 (by omega))
       (by decide) (by decide) (by decide)) cW6).2 0 0 (by decide)⟩

/-- On an invariant-respecting store, the leftward walk from a nonempty
column terminates at a primary-topped column, every column strictly between
having a shadow on top. -/
theorem topWalk_spec (s : Store) (hinv : StoreInv s) :
    ∀ p, p < s.width → s.colAt p ≠ [] →
      ∃ c, s.topWalk p = some c ∧ c.value ≠ -1 ∧
        ∃ q, q ≤ p ∧ (s.colAt q).getLast? = some c ∧
          ∀ j, q < j → j ≤ p → ∃ e, (s.colAt j).getLast? = some e ∧ e.value = -1 := by
  intro p
  induction p with
  | zero =>
    intro hp hne
    rcases hlast : (s.colAt 0).getLast? with - | e
    · have hlen : 0 < (s.colAt 0).length := List.length_pos.mpr hne
      rw [List.getLast?_eq_getElem?, List.getElem?_eq_none_iff] at hlast
      omega
    · have hent : s.entry 0 ((s.colAt 0).length - 1) = some e := by
        rw [Store.entry, ← List.getLast?_eq_getElem?]
        exact hlast
      by_cases hev : e.value = -1
      · obtain ⟨q0, c0, hq0, -, -, -, -⟩ := hinv.shadow_owner 0 _ e hent hev
        omega
      · refine ⟨e, ?_, hev, 0, Nat.le_refl 0, hlast, ?_⟩
        · simp only [Store.topWalk, hlast]
          rw [if_neg hev]
        · intro j hj1 hj2
          omega
  | succ p ih =>
    intro hp hne
    rcases hlast : (s.colAt (p + 1)).getLast? with - | e
    · have hlen : 0 < (s.colAt (p + 1)).length := List.length_pos.mpr hne
      rw [List.getLast?_eq_getElem?, List.getElem?_eq_none_iff] at hlast
      omega
    · have hent : s.entry (p + 1) ((s.colAt (p + 1)).length - 1) = some e := by
        rw [Store.entry, ← List.getLast?_eq_getElem?]
        exact hlast
      by_cases hev : e.value = -1
      · obtain ⟨q0, c0, hq0, hc0, hc0v, hcov, -⟩ :=
          hinv.shadow_owner (p + 1) _ e hent hev
        have hpcell : ∃ d, s.entry p ((s.colAt (p + 1)).length - 1) = some d := by
          by_cases hq0p : q0 = p
          · subst hq0p
            exact ⟨c0, hc0⟩
          · obtain ⟨-, -, -, hshadow⟩ := hinv.primary_spec q0 _ c0 hc0 hc0v
            refine ⟨dumbContainer c0, ?_⟩
            have := hshadow (p - q0) (by omega) (by omega)
            rwa [show q0 + (p - q0) = p by omega] at this
        obtain ⟨d, hd⟩ := hpcell
        have hpne : s.colAt p ≠ [] := by
          intro hemp
          rw [Store.entry, hemp] at hd
          simp at hd
        obtain ⟨c', hw, hc'v, q, hq, hlastq, hbet⟩ := ih (by omega) hpne
        refine ⟨c', ?_, hc'v, q, by omega, hlastq, ?_⟩
        · simp only [Store.topWalk, hlast]
          rw [if_pos hev]
          exact hw
        · intro j hj1 hj2
          rcases Nat.lt_or_ge j (p + 1) with hj | hj
          · exact hbet j hj1 (by omega)
          · have hjp : j = p + 1 := by omega
            subst hjp
            exact ⟨e, hlast, hev⟩
      · refine ⟨e, ?_, hev, p + 1, Nat.le_refl _, hlast, ?_⟩
        · simp only [Store.topWalk, hlast]
          rw [if_neg hev]
        · intro j hj1 hj2
          omega

/-- Claim C2 (amended).  On a reachable store and an in-range position `p`,
`top_container p` is `none` iff column `p` is empty, and otherwise it
returns the primary top entry of the nearest column `q ≤ p` whose top is a
primary (all columns strictly between having shadow tops); it never returns
a shadow entry.  The returned primary does not in general own the topmost
cell of column `p`. -/
theorem c2_top_container_amended (s : Store) (hre : Reachable s) (p : Nat)
    (hp : p < s.width) :
    (s.top_container p = none ↔ s.colAt p = []) ∧
    (∀ c, s.top_container p = some c → c.value ≠ -1 ∧
      ∃ q, q ≤ p ∧ (s.colAt q).getLast? = some c ∧
        ∀ j, q < j → j ≤ p → ∃ e, (s.colAt j).getLast? = some e ∧ e.value = -1) := by
  have hinv := reachable_inv s hre
  by_cases hne : s.colAt p = []
  · constructor
    · rw [Store.top_container, if_pos hp, if_neg (by rw [hne]; simp)]
      exact iff_of_true rfl hne
    · intro c hc
      rw [Store.top_container, if_pos hp, if_neg (by rw [hne]; simp)] at hc
      cases hc
  · obtain ⟨c0, hw, hcv, q, hq, hlastq, hbet⟩ := topWalk_spec s hinv p hp hne
    have htc : s.top_container p = some c0 := by
      rw [Store.top_container, if_pos hp,
        if_pos (fun h0 => hne (List.length_eq_zero.mp h0))]
      exact hw
    constructor
    · rw [htc]
      constructor
      · intro h
        cases h
      · intro h
        exact absurd h hne
    · intro c hc
      rw [htc] at hc
      injection hc with hc
      subst hc
      exact ⟨hcv, q, hq, hlastq, hbet⟩

/-- A size-2 container for the C2 witness. -/
def cW2 : Container := ⟨4, 2, 6, ⟨0, 1⟩, ⟨0, 1⟩⟩

/-- Width-2 store holding `cW2` on columns 0-1 (witness for C2). -/
def sW2 : Store := (emptyStore 2).add cW2 0

/-- Witness for C2 (amended): at column 1 (topped by a shadow) the walk
returns the primary `cW2` of column 0. -/
theorem c2_top_container_witness :
    (sW2.top_container 1 = none ↔ sW2.colAt 1 = []) ∧
    (cW2.value ≠ -1 ∧ ∃ q, q ≤ 1 ∧ (sW2.colAt q).getLast? = some cW2 ∧
      ∀ j, q < j → j ≤ 1 → ∃ e, (sW2.colAt j).getLast? = some e ∧ e.value = -1) := by
  have h := c2_top_container_amended sW2
    (Reachable.addStep (emptyStore 2) cW2 0 (Reachable.empty 2 (by omega))
      (by decide) (by decide) (by decide)) 1 (by decide)
  exact ⟨h.1, h.2 cW2 (by decide)⟩

/-! ## The `is not` identity test in `can_remove` (claim C5) -/

/-- CPython `is` on two integer objects obtained from independent run-time
computations (here: the freshly computed `len(column)-1` and the row stored
in the location dictionary at `add` time): the objects are identical iff the
value lies in the interpreter's small-integer cache `[-5, 256]` (cached
singletons) and the values are equal; outside the cache the two computations
allocate distinct objects, so `is` is false even on equal values. -/
def intIs (a b : Int) : Bool :=
  a == b && (-5 ≤ a && a ≤ 256)

/-- `Store.can_remove` as executed by CPython: identical to the source except
that the per-column test `len(self._containers[i])-1 is not l[0]` is the
object-identity test `intIs`, not integer equality. -/
def Store.can_remove_py (s : Store) (c : Container) : Bool :=
  match locGet c.identifier s.containerLoc with
  | none => false
  | some (r, q) =>
    if c.value = -1 then false
    else (List.range' q c.size).all fun i =>
      intIs ((s.get_column_height i : Int) - 1) (r : Int)

theorem add_containerLoc_pos (s : Store) (c : Container) (p : Nat)
    (h : s.can_add c p = true) :
    (s.add c p).containerLoc =
      locUpdate c.identifier ((s.colAt p).length, p) s.containerLoc := by
  rw [Store.add, if_pos h]

theorem add_containerLoc_neg (s : Store) (c : Container) (p : Nat)
    (h : ¬s.can_add c p = true) :
    (s.add c p).containerLoc = s.containerLoc := by
  rw [Store.add, if_neg h]

/-- The `i`-th container of the tall stack used for the C5 failing input. -/
def stackC (i : Nat) : Container := ⟨i, 1, 0, ⟨0, 1⟩, ⟨0, 1⟩⟩

/-- A width-1 store built by `n` successive `add`s of distinct size-1
containers, stacking column 0 to height `n`. -/
def stackN : Nat → Store
  | 0 => emptyStore 1
  | n + 1 => (stackN n).add (stackC n) 0

theorem stackN_locGet_none : ∀ n k, n ≤ k → locGet k (stackN n).containerLoc = none := by
  intro n
  induction n with
  | zero =>
    intro k _
    rfl
  | succ n ih =>
    intro k hk
    have hid : (stackC n).identifier ≠ k := by
      simp only [stackC]
      omega
    by_cases hca : (stackN n).can_add (stackC n) 0 = true
    · rw [show stackN (n + 1) = (stackN n).add (stackC n) 0 from rfl,
        add_containerLoc_pos _ _ _ hca, locGet_locUpdate_ne _ _ _ _ hid]
      exact ih k (by omega)
    · rw [show stackN (n + 1) = (stackN n).add (stackC n) 0 from rfl,
        add_containerLoc_neg _ _ _ hca]
      exact ih k (by omega)

/-- Every tall stack is reachable: each step adds a fresh, well-formed
container. -/
theorem stackN_reachable (n : Nat) : Reachable (stackN n) := by
  induction n with
  | zero => exact Reachable.empty 1 (by omega)
  | succ n ih =>
    exact Reachable.addStep (stackN n) (stackC n) 0 ih (by norm_num [stackC])
      (by norm_num [stackC]) (stackN_locGet_none n n (Nat.le_refl n))

theorem add_width (s : Store) (c : Container) (p : Nat) :
    (s.add c p).width = s.width := by
  rw [Store.add]
  split
  · rfl
  · rfl

theorem stackN_width : ∀ n, (stackN n).width = 1 := by
  intro n
  induction n with
  | zero => rfl
  | succ n ih =>
    rw [show stackN (n + 1) = (stackN n).add (stackC n) 0 from rfl, add_width, ih]

theorem stackN_can_add (n : Nat) : (stackN n).can_add (stackC n) 0 = true := by
  rw [Store.can_add, if_neg (by rw [stackN_width]; norm_num [stackC])]
  rfl

theorem stackN_colAt0 : ∀ n, (stackN n).colAt 0 = (List.range n).map stackC := by
  intro n
  induction n with
  | zero => rfl
  | succ n ih =>
    obtain ⟨-, -, -, hprim, -, -, -⟩ := add_of_can_add (stackN n) (stackC n) 0
      (reachable_inv _ (stackN_reachable n)).len_eq (by norm_num [stackC])
      (stackN_can_add n)
    rw [show stackN (n + 1) = (stackN n).add (stackC n) 0 from rfl, hprim, ih,
      List.range_succ, List.map_append]
    rfl

theorem stackN_locGet_lt : ∀ n i, i < n → locGet i (stackN n).containerLoc = some (i, 0) := by
  intro n
  induction n with
  | zero =>
    intro i h
    omega
  | succ n ih =>
    intro i h
    rw [show stackN (n + 1) = (stackN n).add (stackC n) 0 from rfl,
      add_containerLoc_pos _ _ _ (stackN_can_add n)]
    by_cases hi : i = n
    · subst hi
      rw [show ((stackN i).colAt 0).length = i from by rw [stackN_colAt0]; simp]
      exact locGet_locUpdate_self (stackC i).identifier (i, 0) (stackN i).containerLoc
    · rw [locGet_locUpdate_ne _ _ _ _
        (show (stackC n).identifier ≠ i from by simp only [stackC]; omega)]
      exact ih i (by omega)

/-- Claim C5 (code bug).  In the reachable width-1 store stacked to height
258, the topmost container `stackC 257` is present as a primary entry, is
not a shadow marker, and is the topmost entry of its (single-column)
footprint — yet `can_remove` as executed by CPython returns `False`: its row
257 lies outside the small-integer cache, so `len(column)-1 is not row` is
true although the values are equal.  The integer-equality reading of the
same code (`Store.can_remove`) returns `True`, which is what the claim, the
spec and the method's own documentation require. -/
theorem c5_can_remove_py_bug :
    Reachable (stackN 258) ∧
    ((stackN 258).can_remove_py (stackC 257) = false ∧
      (stackN 258).entry 0 257 = some (stackC 257) ∧
      (stackC 257).value ≠ -1 ∧
      (stackN 258).get_column_height 0 = 258 ∧
      (stackN 258).can_remove (stackC 257) = true) := by
  have hloc : locGet (stackC 257).identifier (stackN 258).containerLoc = some (257, 0) :=
    stackN_locGet_lt 258 257 (by omega)
  have hheight : (stackN 258).get_column_height 0 = 258 := by
    rw [Store.get_column_height, stackN_colAt0]
    simp
  refine ⟨stackN_reachable 258, ?_, ?_, by norm_num [stackC], hheight, ?_⟩
  · simp only [Store.can_remove_py, hloc]
    rw [if_neg (by norm_num [stackC]),
      show List.range' 0 (stackC 257).size = [0] from rfl]
    simp only [List.all_cons, List.all_nil, Bool.and_true]
    rw [show (stackN 258).get_column_height 0 = 258 from hheight]
    decide
  · rw [Store.entry, stackN_colAt0, List.getElem?_map,
      List.getElem?_range (by omega)]
    rfl
  · refine can_remove_of_heights (stackN 258) (stackC 257) 257 0 hloc
      (by norm_num [stackC]) ?_
    intro i h1 h2
    have hi0 : i = 0 := by
      simp only [stackC] at h2
      omega
    subst hi0
    rw [stackN_colAt0]
    simp
